import Mathlib

/-!
Verification of the on-demand light-client request dispatcher
(`substrate/network/src/on_demand.rs`).

The Rust module is embedded shallowly: the dispatcher core
(`OnDemandCore`) becomes a record over lists, the `LinkedHashMap` of
active peers becomes an insertion-ordered association list, the
`VecDeque`s become lists, `Instant` becomes a natural number of seconds,
and the side effects performed through `SyncIo`, the service link and the
oneshot senders become an explicit list of `Effect`s returned by each
operation.  The external `FetchChecker` is a parameter, as in the source.
-/

namespace OnDemand

/-- Peer identifier (`PeerId` in the source). -/
abbrev PeerId := Nat

/-- Remote request timeout in seconds (`REQUEST_TIMEOUT` in the source). -/
def REQUEST_TIMEOUT : Nat := 15

/-- `client::light::RemoteReadRequest`: block id and storage key. -/
structure RemoteReadRequest where
  block : Nat
  key : List Nat
  deriving DecidableEq

/-- `client::light::RemoteCallRequest`: block id, method name, call data. -/
structure RemoteCallRequest where
  block : Nat
  method : String
  call_data : List Nat
  deriving DecidableEq

/-- `client::CallResult`: returned bytes plus state changes. -/
structure CallResult where
  return_data : List Nat
  changes : List Nat
  deriving DecidableEq

/-- `RequestData`: the payload of a request together with its oneshot
sender, modelled as an abstract sink identifier. -/
inductive RequestData where
  | remoteRead (req : RemoteReadRequest) (sender : Nat)
  | remoteCall (req : RemoteCallRequest) (sender : Nat)
  deriving DecidableEq

/-- `Request`: id, timestamp of the last enqueue or dispatch, payload. -/
structure Request where
  id : Nat
  timestamp : Nat
  data : RequestData
  deriving DecidableEq

/-- The outbound wire messages built by `Request::message`. -/
inductive Message where
  | remoteCallRequest (id : Nat) (block : Nat) (method : String) (data : List Nat)
  | remoteReadRequest (id : Nat) (block : Nat) (key : List Nat)
  deriving DecidableEq

/-- `Request::message`: build the outbound message; the id field is the
request's own id and the timestamp is not read. -/
def Request.message (r : Request) : Message :=
  match r.data with
  | RequestData.remoteCall d _ => Message.remoteCallRequest r.id d.block d.method d.call_data
  | RequestData.remoteRead d _ => Message.remoteReadRequest r.id d.block d.key

/-- The id carried by an outbound wire message. -/
def Message.msgId : Message → Nat
  | Message.remoteCallRequest i _ _ _ => i
  | Message.remoteReadRequest i _ _ => i

/-- `service::Role` bit flags, one Bool per flag. -/
structure Role where
  light : Bool
  full : Bool
  collator : Bool
  validator : Bool
  deriving DecidableEq

/-- `role.intersects(Role::FULL | Role::COLLATOR | Role::VALIDATOR)`. -/
def Role.intersectsServing (r : Role) : Bool :=
  r.full || r.collator || r.validator

def roleLight : Role := { light := true, full := false, collator := false, validator := false }

def roleFull : Role := { light := false, full := true, collator := false, validator := false }

/-- Payload written to a completion sink. -/
inductive SinkPayload where
  | readPayload (value : Option (List Nat))
  | callPayload (value : CallResult)
  deriving DecidableEq

/-- Observable side effects of a dispatcher operation: messages sent via
the service link, `SyncIo::disconnect_peer` calls, and oneshot sends. -/
inductive Effect where
  | sendMessage (peer : PeerId) (msg : Message)
  | disconnectPeer (peer : PeerId)
  | sinkSend (sender : Nat) (payload : SinkPayload)
  deriving DecidableEq

/-- `OnDemandCore`: the state guarded by the mutex.  `serviceAlive`
models whether the `Weak` service link can still be upgraded. -/
structure OnDemandCore where
  serviceAlive : Bool
  next_request_id : Nat
  pending_requests : List Request
  active_peers : List (PeerId × Request)
  idle_peers : List PeerId
  deriving DecidableEq

/-- Key lookup in the insertion-ordered association list modelling the
`LinkedHashMap` of active peers. -/
def lhmGet? (m : List (PeerId × Request)) (k : PeerId) : Option Request :=
  (m.find? (fun e => e.1 == k)).map Prod.snd

/-- `LinkedHashMap` removal by key: the first entry with the key goes,
the order of the remaining entries is preserved. -/
def lhmRemoveKey (m : List (PeerId × Request)) (k : PeerId) : List (PeerId × Request) :=
  m.eraseP (fun e => e.1 == k)

/-- `LinkedHashMap::insert`: an existing entry for the key is refreshed,
i.e. moved to the back with the new value; a fresh key is appended. -/
def lhmInsert (m : List (PeerId × Request)) (k : PeerId) (v : Request) : List (PeerId × Request) :=
  m.eraseP (fun e => e.1 == k) ++ [(k, v)]

/-- `VecDeque::swap_remove_back`: the element at index `i` is replaced by
the back element, which is then popped; an out-of-bounds index leaves the
deque unchanged. -/
def swapRemoveBack (l : List PeerId) (i : Nat) : List PeerId :=
  if i < l.length then (l.set i (l.getLastD 0)).dropLast else l

/-- `OnDemandCore::add_peer`: push the peer on the idle deque's back. -/
def OnDemandCore.add_peer (s : OnDemandCore) (peer : PeerId) : OnDemandCore :=
  { s with idle_peers := s.idle_peers ++ [peer] }

/-- `OnDemandCore::remove_peer`: an active peer's request is pushed to
the pending queue's front; otherwise the peer is swap-removed from the
idle deque if present. -/
def OnDemandCore.remove_peer (s : OnDemandCore) (peer : PeerId) : OnDemandCore :=
  match lhmGet? s.active_peers peer with
  | some request =>
    { s with active_peers := lhmRemoveKey s.active_peers peer,
             pending_requests := request :: s.pending_requests }
  | none =>
    match s.idle_peers.findIdx? (fun i => i == peer) with
    | some idle_index => { s with idle_peers := swapRemoveBack s.idle_peers idle_index }
    | none => s

/-- The loop of `OnDemandCore::maintain_peers`: pop expired entries from
the active map's front, pushing each request on the pending queue's
front, until the front entry is not expired. -/
def maintainLoop (now : Nat) : List (PeerId × Request) → List Request →
    List (PeerId × Request) × List Request × List PeerId
  | [], pending => ([], pending, [])
  | (p, r) :: rest, pending =>
    if REQUEST_TIMEOUT ≤ now - r.timestamp then
      let res := maintainLoop now rest (r :: pending)
      (res.1, res.2.1, p :: res.2.2)
    else ((p, r) :: rest, pending, [])

/-- `OnDemandCore::maintain_peers`: returns the updated core and the
evicted peer ids, in eviction order. -/
def OnDemandCore.maintain_peers (s : OnDemandCore) (now : Nat) : OnDemandCore × List PeerId :=
  let res := maintainLoop now s.active_peers s.pending_requests
  ({ s with active_peers := res.1, pending_requests := res.2.1 }, res.2.2)

/-- `OnDemandCore::insert`: allocate the next request id and push a fresh
request on the pending queue's back. -/
def OnDemandCore.insert (s : OnDemandCore) (now : Nat) (data : RequestData) : OnDemandCore :=
  { s with next_request_id := s.next_request_id + 1,
           pending_requests := s.pending_requests ++
             [{ id := s.next_request_id, timestamp := now, data := data }] }

/-- `OnDemandCore::remove`: on a (peer, id) match the entry leaves the
active map and the peer is pushed on the idle deque's back; otherwise the
state is unchanged and `none` is returned. -/
def OnDemandCore.remove (s : OnDemandCore) (peer : PeerId) (id : Nat) :
    Option Request × OnDemandCore :=
  match lhmGet? s.active_peers peer with
  | some request =>
    if request.id == id then
      (some request,
       { s with idle_peers := s.idle_peers ++ [peer],
                active_peers := lhmRemoveKey s.active_peers peer })
    else (none, s)
  | none => (none, s)

/-- The loop of `OnDemandCore::dispatch`: while the pending queue is
non-empty, pop an idle peer, re-stamp the front pending request, send its
message to the peer and insert the pair into the active map. -/
def dispatchLoop (now : Nat) : List Request → List PeerId → List (PeerId × Request) →
    List Request × List PeerId × List (PeerId × Request) × List Effect
  | [], idle, active => ([], idle, active, [])
  | request :: restPending, idle, active =>
    match idle with
    | [] => (request :: restPending, [], active, [])
    | peer :: restIdle =>
      let stamped : Request := { request with timestamp := now }
      let res := dispatchLoop now restPending restIdle (lhmInsert active peer stamped)
      (res.1, res.2.1, res.2.2.1, Effect.sendMessage peer stamped.message :: res.2.2.2)

/-- `OnDemandCore::dispatch`: a no-op when the weak service link is dead,
otherwise the pairing loop. -/
def OnDemandCore.dispatch (s : OnDemandCore) (now : Nat) : OnDemandCore × List Effect :=
  if s.serviceAlive then
    let res := dispatchLoop now s.pending_requests s.idle_peers s.active_peers
    ({ s with pending_requests := res.1, idle_peers := res.2.1, active_peers := res.2.2.1 },
     res.2.2.2)
  else (s, [])

/-- The `Accept` verdict returned by the response acceptance closure. -/
inductive Accept where
  | ok
  | checkFailed (err : Nat) (data : RequestData)
  | unexpected (data : RequestData)

/-- `OnDemand::accept_response`.  The unmatched branch disconnects and
removes the peer and returns early, without dispatching; the matched
branches run the closure, on failure disconnect and remove the peer and
re-insert the request data, then dispatch. -/
def accept_response (try_accept : Request → Accept × List Effect) (now : Nat) (peer : PeerId)
    (request_id : Nat) (s : OnDemandCore) : OnDemandCore × List Effect :=
  match s.remove peer request_id with
  | (none, s1) => (s1.remove_peer peer, [Effect.disconnectPeer peer])
  | (some request, s1) =>
    match try_accept request with
    | (Accept.ok, effs) =>
      let res := s1.dispatch now
      (res.1, effs ++ res.2)
    | (Accept.checkFailed _ data, effs) =>
      let res := ((s1.remove_peer peer).insert now data).dispatch now
      (res.1, effs ++ [Effect.disconnectPeer peer] ++ res.2)
    | (Accept.unexpected data, effs) =>
      let res := ((s1.remove_peer peer).insert now data).dispatch now
      (res.1, effs ++ [Effect.disconnectPeer peer] ++ res.2)

/-- `message::RemoteReadResponse`. -/
structure RemoteReadResponseMsg where
  id : Nat
  proof : List (List Nat)
  deriving DecidableEq

/-- `message::RemoteCallResponse`. -/
structure RemoteCallResponseMsg where
  id : Nat
  value : List Nat
  proof : List (List Nat)
  deriving DecidableEq

/-- The external `FetchChecker::check_read_proof`. -/
abbrev CheckRead := RemoteReadRequest → List (List Nat) → Except Nat (Option (List Nat))

/-- The external `FetchChecker::check_execution_proof`. -/
abbrev CheckCall := RemoteCallRequest → List Nat × List (List Nat) → Except Nat CallResult

/-- `oneshot::Sender::send`, whose result the source discards: the
payload reaches the receiver only when the consumer still holds it. -/
def oneshotSend (closed : Bool) (sender : Nat) (payload : SinkPayload) : List Effect :=
  if closed then [] else [Effect.sinkSend sender payload]

/-- The closure passed by `OnDemand::on_remote_read_response`. -/
def tryAcceptRead (checkRead : CheckRead) (closed : Nat → Bool) (resp : RemoteReadResponseMsg)
    (request : Request) : Accept × List Effect :=
  match request.data with
  | RequestData.remoteRead rreq sender =>
    match checkRead rreq resp.proof with
    | Except.ok response =>
      (Accept.ok, oneshotSend (closed sender) sender (SinkPayload.readPayload response))
    | Except.error e => (Accept.checkFailed e (RequestData.remoteRead rreq sender), [])
  | data => (Accept.unexpected data, [])

/-- The closure passed by `OnDemand::on_remote_call_response`. -/
def tryAcceptCall (checkCall : CheckCall) (closed : Nat → Bool) (resp : RemoteCallResponseMsg)
    (request : Request) : Accept × List Effect :=
  match request.data with
  | RequestData.remoteCall creq sender =>
    match checkCall creq (resp.value, resp.proof) with
    | Except.ok response =>
      (Accept.ok, oneshotSend (closed sender) sender (SinkPayload.callPayload response))
    | Except.error e => (Accept.checkFailed e (RequestData.remoteCall creq sender), [])
  | data => (Accept.unexpected data, [])

/-- The public dispatcher operations of `OnDemandService` and `Fetcher`,
each carrying the clock reading at which it runs. -/
inductive Op where
  | onConnect (now : Nat) (peer : PeerId) (role : Role)
  | onDisconnect (now : Nat) (peer : PeerId)
  | maintain (now : Nat)
  | submitRead (now : Nat) (req : RemoteReadRequest) (sender : Nat)
  | submitCall (now : Nat) (req : RemoteCallRequest) (sender : Nat)
  | onReadResponse (now : Nat) (peer : PeerId) (resp : RemoteReadResponseMsg)
  | onCallResponse (now : Nat) (peer : PeerId) (resp : RemoteCallResponseMsg)

/-- One public operation of the dispatcher, as a state transition with
its observable effects. -/
def step (checkRead : CheckRead) (checkCall : CheckCall) (closed : Nat → Bool) (op : Op)
    (s : OnDemandCore) : OnDemandCore × List Effect :=
  match op with
  | Op.onConnect now peer role =>
    if role.intersectsServing then (s.add_peer peer).dispatch now else (s, [])
  | Op.onDisconnect now peer => (s.remove_peer peer).dispatch now
  | Op.maintain now =>
    let res := s.maintain_peers now
    let res2 := res.1.dispatch now
    (res2.1, res.2.map Effect.disconnectPeer ++ res2.2)
  | Op.submitRead now req sender => (s.insert now (RequestData.remoteRead req sender)).dispatch now
  | Op.submitCall now req sender => (s.insert now (RequestData.remoteCall req sender)).dispatch now
  | Op.onReadResponse now peer resp =>
    accept_response (tryAcceptRead checkRead closed resp) now peer resp.id s
  | Op.onCallResponse now peer resp =>
    accept_response (tryAcceptCall checkCall closed resp) now peer resp.id s

/-- Run a sequence of public operations, keeping only the state. -/
def run (checkRead : CheckRead) (checkCall : CheckCall) (closed : Nat → Bool)
    (s : OnDemandCore) (ops : List Op) : OnDemandCore :=
  ops.foldl (fun t op => (step checkRead checkCall closed op t).1) s

/-- The state after `OnDemand::new` plus `set_service_link`. -/
def initialCore (alive : Bool) : OnDemandCore :=
  { serviceAlive := alive, next_request_id := 0, pending_requests := [],
    active_peers := [], idle_peers := [] }

/-- A checker accepting every call proof, as the tests' dummy checker. -/
def checkCallOk : CheckCall := fun _ vp => Except.ok { return_data := vp.1, changes := [] }

/-- A checker rejecting every call proof. -/
def checkCallFail : CheckCall := fun _ _ => Except.error 0

/-- A checker accepting every read proof. -/
def checkReadOk : CheckRead := fun _ _ => Except.ok (some [42])

/-- A checker rejecting every read proof. -/
def checkReadFail : CheckRead := fun _ _ => Except.error 0

/-- Consumers hold on to every response handle. -/
def noSinkClosed : Nat → Bool := fun _ => false

/-- The pairing invariant: not both queues non-empty. -/
def Paired (s : OnDemandCore) : Prop :=
  s.pending_requests = [] ∨ s.idle_peers = []

/-- A small concrete call request used in concrete scenarios. -/
def creqT : RemoteCallRequest := { block := 0, method := "m", call_data := [] }

/-- A small concrete read request used in concrete scenarios. -/
def rreqT : RemoteReadRequest := { block := 0, key := [9] }

/-- A concrete in-flight request: id 0, dispatched at time 0, to sink 7. -/
def reqT0 : Request := { id := 0, timestamp := 0, data := RequestData.remoteCall creqT 7 }

/-- A concrete queued request: id 1, enqueued at time 0, to sink 8. -/
def reqT1 : Request := { id := 1, timestamp := 0, data := RequestData.remoteCall creqT 8 }

/-- A concrete dispatcher state: request 0 out to peer 5, request 1 queued,
no idle peer. -/
def coreW : OnDemandCore :=
  { serviceAlive := true, next_request_id := 2, pending_requests := [reqT1],
    active_peers := [(5, reqT0)], idle_peers := [] }

/-- A concrete dispatcher state: request 0 out to peer 4 at time 0, nothing
else anywhere. -/
def coreT : OnDemandCore :=
  { serviceAlive := true, next_request_id := 1, pending_requests := [],
    active_peers := [(4, reqT0)], idle_peers := [] }

/-- The keys of the active map, in insertion order. -/
def activeKeys (s : OnDemandCore) : List PeerId := s.active_peers.map Prod.fst

/-- Registry well-formedness: no duplicate idle peers, no duplicate
active keys, and the two collections are disjoint. -/
def WF (s : OnDemandCore) : Prop :=
  s.idle_peers.Nodup ∧ (activeKeys s).Nodup ∧ ∀ p ∈ s.idle_peers, p ∉ activeKeys s

/-- Whether an active entry has aged past the timeout at clock `now`. -/
def expiredB (now : Nat) (e : PeerId × Request) : Bool :=
  decide (REQUEST_TIMEOUT ≤ now - e.2.timestamp)

/-! ### Lemmas about the `LinkedHashMap` model -/

theorem lhm_decomp {m : List (PeerId × Request)} {k : PeerId} {r : Request}
    (h : lhmGet? m k = some r) :
    ∃ m1 m2, m = m1 ++ (k, r) :: m2 ∧ (∀ e ∈ m1, e.1 ≠ k) ∧
      lhmRemoveKey m k = m1 ++ m2 := by
  induction m with
  | nil => simp [lhmGet?] at h
  | cons e t ih =>
    by_cases hek : e.1 = k
    · refine ⟨[], t, ?_, by simp, ?_⟩
      · have hfind : List.find? (fun x => x.1 == k) (e :: t) = some e :=
          List.find?_cons_of_pos _ (by simp [hek])
        have : e.2 = r := by
          simp only [lhmGet?, hfind, Option.map_some'] at h
          exact Option.some.inj h
        simp [← hek, ← this]
      · simp [lhmRemoveKey, List.eraseP_cons_of_pos, hek]
    · have hb : (e.1 == k) = false := by simp [hek]
      have hstep : List.find? (fun x : PeerId × Request => x.1 == k) (e :: t) =
          List.find? (fun x => x.1 == k) t :=
        List.find?_cons_of_neg _ (by simp [hek])
      have hfind : lhmGet? t k = some r := by
        simpa [lhmGet?, hstep] using h
      obtain ⟨m1, m2, hm, hm1, hrm⟩ := ih hfind
      refine ⟨e :: m1, m2, by simp [hm], ?_, ?_⟩
      · intro x hx
        rcases List.mem_cons.mp hx with h1 | h1
        · simpa [h1] using hek
        · exact hm1 x h1
      · simp [lhmRemoveKey, List.eraseP_cons_of_neg, hb]
        simpa [lhmRemoveKey] using hrm

theorem lhmGet?_eq_none {m : List (PeerId × Request)} {k : PeerId}
    (h : lhmGet? m k = none) : ∀ e ∈ m, e.1 ≠ k := by
  intro e he
  have hfind : List.find? (fun x => x.1 == k) m = none := by
    simpa [lhmGet?] using h
  have := List.find?_eq_none.mp hfind e he
  simpa using this

theorem lhmGet?_of_not_mem {m : List (PeerId × Request)} {k : PeerId}
    (h : ∀ e ∈ m, e.1 ≠ k) : lhmGet? m k = none := by
  have : List.find? (fun x => x.1 == k) m = none :=
    List.find?_eq_none.mpr (fun e he => by simpa using h e he)
  simp [lhmGet?, this]

theorem mem_map_fst {m : List (PeerId × Request)} {k : PeerId} :
    k ∈ m.map Prod.fst ↔ ∃ r, (k, r) ∈ m := by
  constructor
  · intro h
    obtain ⟨e, he, hk⟩ := List.mem_map.mp h
    exact ⟨e.2, by simpa [← hk] using he⟩
  · rintro ⟨r, hr⟩
    exact List.mem_map.mpr ⟨(k, r), hr, rfl⟩

theorem lhmGet?_isSome_of_mem {m : List (PeerId × Request)} {k : PeerId}
    (h : k ∈ m.map Prod.fst) : (lhmGet? m k).isSome := by
  rcases hg : lhmGet? m k with _ | r
  · obtain ⟨r, hr⟩ := mem_map_fst.mp h
    exact absurd rfl (lhmGet?_eq_none hg (k, r) hr)
  · rfl

/-! ### Lemmas about `swapRemoveBack` -/

theorem set_dropLast_perm : ∀ (l : List PeerId) (i : Nat) (g : PeerId),
    i < l.length → l.getLast? = some g → ((l.set i g).dropLast).Perm (l.eraseIdx i) := by
  intro l
  induction l with
  | nil => intro i g h _; simp at h
  | cons a t ih =>
    intro i g h hg
    cases i with
    | zero =>
      cases t with
      | nil => simp
      | cons b u =>
        have hg2 : (b :: u).getLast? = some g := by
          rw [← hg]; exact List.getLast?_cons_cons.symm
        have hsplit : (b :: u).dropLast ++ [g] = b :: u :=
          List.dropLast_append_getLast? g (by simpa using hg2)
        simp only [List.set_cons_zero, List.dropLast_cons₂, List.eraseIdx_cons_zero]
        have hperm : (g :: (b :: u).dropLast).Perm ((b :: u).dropLast ++ [g]) :=
          (List.perm_append_singleton _ _).symm
        rw [hsplit] at hperm
        exact hperm
    | succ i =>
      cases t with
      | nil => simp at h
      | cons b u =>
        have hlen : i < (b :: u).length := by simpa using Nat.lt_of_succ_lt_succ h
        have hg2 : (b :: u).getLast? = some g := by
          rw [← hg]; exact List.getLast?_cons_cons.symm
        have hne : (b :: u).set i g ≠ [] := by
          intro hc
          have := congrArg List.length hc
          simp at this
        obtain ⟨c, cs, hcs⟩ := List.exists_cons_of_ne_nil hne
        simp only [List.set_cons_succ, List.eraseIdx_cons_succ]
        rw [hcs, List.dropLast_cons₂, ← hcs]
        exact (ih i g hlen hg2).cons a

theorem swapRemoveBack_perm {l : List PeerId} {i : Nat} (h : i < l.length) :
    (swapRemoveBack l i).Perm (l.eraseIdx i) := by
  have hne : l ≠ [] := by
    intro hc; rw [hc] at h; simp at h
  obtain ⟨g, hg⟩ : ∃ g, l.getLast? = some g := by
    cases hgl : l.getLast? with
    | none => exact absurd (List.getLast?_eq_none_iff.mp hgl) hne
    | some g => exact ⟨g, rfl⟩
  have hd : l.getLastD 0 = g := by
    rw [List.getLastD_eq_getLast?, hg]; rfl
  unfold swapRemoveBack
  rw [if_pos h, hd]
  exact set_dropLast_perm l i g h hg

theorem swapRemoveBack_subset (l : List PeerId) (i : Nat) : swapRemoveBack l i ⊆ l := by
  by_cases h : i < l.length
  · intro x hx
    exact List.mem_of_mem_eraseIdx ((swapRemoveBack_perm h).mem_iff.mp hx)
  · intro x hx
    simpa [swapRemoveBack, h] using hx

theorem swapRemoveBack_nodup {l : List PeerId} (i : Nat) (h : l.Nodup) :
    (swapRemoveBack l i).Nodup := by
  by_cases hb : i < l.length
  · exact ((swapRemoveBack_perm hb).symm).nodup (h.eraseIdx i)
  · simpa [swapRemoveBack, hb] using h

/-! ### Lemmas about `findIdx?` and `erase` -/

theorem findIdx?_beq_spec {p : PeerId} : ∀ {l : List PeerId} {i : Nat},
    l.findIdx? (fun x => x == p) = some i → i < l.length ∧ l.eraseIdx i = l.erase p := by
  intro l
  induction l with
  | nil => intro i h; simp [List.findIdx?_nil] at h
  | cons a t ih =>
    intro i h
    by_cases hap : a = p
    · rw [List.findIdx?_cons, if_pos (by simp [hap]), Option.some_inj] at h
      subst h
      constructor
      · simp
      · simp [hap]
    · rw [List.findIdx?_cons, if_neg (by simp [hap]), List.findIdx?_succ] at h
      cases hsub : t.findIdx? (fun x => x == p) with
      | none => rw [hsub] at h; simp at h
      | some j =>
        rw [hsub] at h
        simp only [Option.map_some'] at h
        obtain ⟨hlt, heq⟩ := ih hsub
        rw [← Option.some_inj.mp h]
        constructor
        · simpa using Nat.succ_lt_succ hlt
        · rw [List.eraseIdx_cons_succ, heq, List.erase_cons_tail (by simp [hap])]

theorem not_mem_swapRemoveBack_of_findIdx? {l : List PeerId} {p : PeerId} {i : Nat}
    (hn : l.Nodup) (h : l.findIdx? (fun x => x == p) = some i) :
    p ∉ swapRemoveBack l i := by
  obtain ⟨hlt, heq⟩ := findIdx?_beq_spec h
  intro hmem
  have hmem2 : p ∈ l.erase p := by
    rw [← heq]
    exact (swapRemoveBack_perm hlt).mem_iff.mp hmem
  exact absurd ((hn.mem_erase_iff.mp hmem2).1) (by simp)

/-! ### The idle half of `remove_peer` -/

theorem remove_peer_idle_branch {s : OnDemandCore} {peer : PeerId}
    (hact : lhmGet? s.active_peers peer = none) (hn : s.idle_peers.Nodup) :
    peer ∉ (s.remove_peer peer).idle_peers ∧
    (s.remove_peer peer).idle_peers ⊆ s.idle_peers ∧
    (s.remove_peer peer).idle_peers.Nodup ∧
    (s.remove_peer peer).active_peers = s.active_peers ∧
    (s.remove_peer peer).pending_requests = s.pending_requests ∧
    (s.remove_peer peer).next_request_id = s.next_request_id ∧
    (s.remove_peer peer).serviceAlive = s.serviceAlive := by
  unfold OnDemandCore.remove_peer
  rw [hact]
  cases hidx : s.idle_peers.findIdx? (fun i => i == peer) with
  | none =>
    have hnm : peer ∉ s.idle_peers := by
      intro hmem
      have := List.findIdx?_eq_none_iff.mp hidx peer hmem
      simp at this
    exact ⟨hnm, fun x hx => hx, hn, rfl, rfl, rfl, rfl⟩
  | some i =>
    refine ⟨not_mem_swapRemoveBack_of_findIdx? hn hidx, ?_, swapRemoveBack_nodup i hn,
      rfl, rfl, rfl, rfl⟩
    exact swapRemoveBack_subset s.idle_peers i

/-! ### Characterization of the dispatch loop -/

theorem dispatchLoop_pending (now : Nat) : ∀ (pending : List Request) (idle : List PeerId)
    (active : List (PeerId × Request)),
    (dispatchLoop now pending idle active).1 = pending.drop idle.length := by
  intro pending
  induction pending with
  | nil => intro idle active; simp [dispatchLoop]
  | cons r rest ih =>
    intro idle active
    cases idle with
    | nil => simp [dispatchLoop]
    | cons p restIdle => simp [dispatchLoop, ih, List.drop_succ_cons]

theorem dispatchLoop_idle (now : Nat) : ∀ (pending : List Request) (idle : List PeerId)
    (active : List (PeerId × Request)),
    (dispatchLoop now pending idle active).2.1 = idle.drop pending.length := by
  intro pending
  induction pending with
  | nil => intro idle active; simp [dispatchLoop]
  | cons r rest ih =>
    intro idle active
    cases idle with
    | nil => simp [dispatchLoop]
    | cons p restIdle => simp [dispatchLoop, ih, List.drop_succ_cons]

theorem dispatchLoop_effects (now : Nat) : ∀ (pending : List Request) (idle : List PeerId)
    (active : List (PeerId × Request)),
    (dispatchLoop now pending idle active).2.2.2 =
      List.zipWith
        (fun r p => Effect.sendMessage p ({ r with timestamp := now } : Request).message)
        pending idle := by
  intro pending
  induction pending with
  | nil => intro idle active; simp [dispatchLoop]
  | cons r rest ih =>
    intro idle active
    cases idle with
    | nil => simp [dispatchLoop]
    | cons p restIdle => simp [dispatchLoop, ih]

theorem dispatchLoop_idle_nil (now : Nat) (pending : List Request)
    (active : List (PeerId × Request)) :
    dispatchLoop now pending [] active = (pending, [], active, []) := by
  cases pending <;> simp [dispatchLoop]

theorem dispatchLoop_pending_nil (now : Nat) (idle : List PeerId)
    (active : List (PeerId × Request)) :
    dispatchLoop now [] idle active = ([], idle, active, []) := by
  simp [dispatchLoop]

/-! ### Dispatch lemmas -/

theorem dispatch_alive (s : OnDemandCore) (now : Nat) :
    ((s.dispatch now).1).serviceAlive = s.serviceAlive := by
  unfold OnDemandCore.dispatch
  cases h : s.serviceAlive <;> simp [h]

theorem dispatch_paired (s : OnDemandCore) (now : Nat) (h : s.serviceAlive = true) :
    (s.dispatch now).1.pending_requests = [] ∨ (s.dispatch now).1.idle_peers = [] := by
  unfold OnDemandCore.dispatch
  rw [h]
  simp only [if_true, dispatchLoop_pending, dispatchLoop_idle]
  rcases Nat.le_total s.pending_requests.length s.idle_peers.length with hle | hle
  · exact Or.inl (List.drop_eq_nil_iff.mpr hle)
  · exact Or.inr (List.drop_eq_nil_iff.mpr hle)

theorem dispatch_of_idle_nil {s : OnDemandCore} (now : Nat) (h : s.idle_peers = []) :
    s.dispatch now = (s, []) := by
  obtain ⟨alive, nid, pend, act, idle⟩ := s
  simp only at h
  subst h
  unfold OnDemandCore.dispatch
  cases alive <;> simp [dispatchLoop_idle_nil]

theorem dispatch_of_pending_nil {s : OnDemandCore} (now : Nat) (h : s.pending_requests = []) :
    s.dispatch now = (s, []) := by
  obtain ⟨alive, nid, pend, act, idle⟩ := s
  simp only at h
  subst h
  unfold OnDemandCore.dispatch
  cases alive <;> simp [dispatchLoop_pending_nil]

/-! ### Characterization of the maintenance loop -/

theorem maintainLoop_spec (now : Nat) : ∀ (active : List (PeerId × Request))
    (pending : List Request),
    maintainLoop now active pending =
      (active.dropWhile (expiredB now),
       ((active.takeWhile (expiredB now)).map Prod.snd).reverse ++ pending,
       (active.takeWhile (expiredB now)).map Prod.fst) := by
  intro active
  induction active with
  | nil => intro pending; simp [maintainLoop]
  | cons e rest ih =>
    intro pending
    obtain ⟨p, r⟩ := e
    by_cases h : REQUEST_TIMEOUT ≤ now - r.timestamp
    · simp only [maintainLoop, if_pos h, ih (r :: pending)]
      simp [List.takeWhile_cons, List.dropWhile_cons, expiredB, h]
    · simp only [maintainLoop, if_neg h]
      simp [List.takeWhile_cons, List.dropWhile_cons, expiredB, h]

/-! ### Field-preservation lemmas for the core operations -/

theorem remove_snd_fields (s : OnDemandCore) (peer : PeerId) (id : Nat) :
    (s.remove peer id).2.serviceAlive = s.serviceAlive ∧
    (s.remove peer id).2.pending_requests = s.pending_requests ∧
    (s.remove peer id).2.next_request_id = s.next_request_id := by
  unfold OnDemandCore.remove
  cases hg : lhmGet? s.active_peers peer with
  | none => exact ⟨rfl, rfl, rfl⟩
  | some request =>
    by_cases hid : request.id == id
    · simp [hid]
    · simp [hid]

theorem remove_peer_fields (s : OnDemandCore) (peer : PeerId) :
    (s.remove_peer peer).serviceAlive = s.serviceAlive ∧
    (s.remove_peer peer).next_request_id = s.next_request_id := by
  unfold OnDemandCore.remove_peer
  cases hg : lhmGet? s.active_peers peer with
  | none =>
    cases hidx : s.idle_peers.findIdx? (fun i => i == peer) with
    | none => exact ⟨rfl, rfl⟩
    | some i => exact ⟨rfl, rfl⟩
  | some request => exact ⟨rfl, rfl⟩

/-! ### Well-formedness preservation -/

theorem lhmInsert_fresh {m : List (PeerId × Request)} {k : PeerId} (v : Request)
    (h : k ∉ m.map Prod.fst) : lhmInsert m k v = m ++ [(k, v)] := by
  unfold lhmInsert
  rw [List.eraseP_of_forall_not]
  intro e he
  have : e.1 ≠ k := by
    intro hc
    exact h (List.mem_map.mpr ⟨e, he, hc⟩)
  simp [this]

theorem keys_removeKey_sublist (m : List (PeerId × Request)) (k : PeerId) :
    ((lhmRemoveKey m k).map Prod.fst).Sublist (m.map Prod.fst) :=
  (List.eraseP_sublist m).map Prod.fst

theorem mem_keys_of_get {m : List (PeerId × Request)} {k : PeerId} {r : Request}
    (hg : lhmGet? m k = some r) : k ∈ m.map Prod.fst := by
  obtain ⟨m1, m2, hm, _, _⟩ := lhm_decomp hg
  subst hm
  simp

theorem not_mem_keys_removeKey {m : List (PeerId × Request)} {k : PeerId} {r : Request}
    (hg : lhmGet? m k = some r) (hn : (m.map Prod.fst).Nodup) :
    k ∉ (lhmRemoveKey m k).map Prod.fst := by
  obtain ⟨m1, m2, hm, _, hrm⟩ := lhm_decomp hg
  rw [hrm]
  subst hm
  rw [List.map_append] at hn
  simp only [List.map_cons] at hn
  obtain ⟨h1, h2, hdisj⟩ := List.nodup_append.mp hn
  have hk2 : k ∉ m2.map Prod.fst := (List.nodup_cons.mp h2).1
  have hk1 : k ∉ m1.map Prod.fst := fun hmem => hdisj hmem (List.mem_cons_self _ _)
  rw [List.map_append]
  intro hmem
  rcases List.mem_append.mp hmem with h | h
  · exact hk1 h
  · exact hk2 h

theorem nodup_append_singleton {l : List PeerId} {p : PeerId} (hn : l.Nodup) (hp : p ∉ l) :
    (l ++ [p]).Nodup :=
  ((List.perm_append_singleton p l).symm).nodup (List.nodup_cons.mpr ⟨hp, hn⟩)

theorem WF_add_peer {s : OnDemandCore} {peer : PeerId} (h : WF s)
    (hidle : peer ∉ s.idle_peers) (hact : peer ∉ activeKeys s) :
    WF (s.add_peer peer) := by
  obtain ⟨h1, h2, h3⟩ := h
  refine ⟨nodup_append_singleton h1 hidle, h2, ?_⟩
  intro q hq
  rcases List.mem_append.mp hq with hql | hqr
  · exact h3 q hql
  · rw [List.mem_singleton.mp hqr]
    exact hact

theorem WF_remove_peer {s : OnDemandCore} (peer : PeerId) (h : WF s) :
    WF (s.remove_peer peer) := by
  obtain ⟨h1, h2, h3⟩ := h
  unfold OnDemandCore.remove_peer
  cases hg : lhmGet? s.active_peers peer with
  | some request =>
    refine ⟨h1, ?_, ?_⟩
    · exact (keys_removeKey_sublist s.active_peers peer).nodup h2
    · intro q hq
      intro hmem
      exact h3 q hq ((keys_removeKey_sublist s.active_peers peer).subset hmem)
  | none =>
    cases hidx : s.idle_peers.findIdx? (fun i => i == peer) with
    | none => exact ⟨h1, h2, h3⟩
    | some i =>
      refine ⟨swapRemoveBack_nodup i h1, h2, ?_⟩
      intro q hq
      exact h3 q (swapRemoveBack_subset s.idle_peers i hq)

theorem WF_maintain {s : OnDemandCore} (now : Nat) (h : WF s) :
    WF (s.maintain_peers now).1 := by
  obtain ⟨h1, h2, h3⟩ := h
  unfold OnDemandCore.maintain_peers
  rw [maintainLoop_spec]
  have hsub : ((s.active_peers.dropWhile (expiredB now)).map Prod.fst).Sublist
      (s.active_peers.map Prod.fst) :=
    (List.dropWhile_sublist (expiredB now)).map Prod.fst
  refine ⟨h1, hsub.nodup h2, ?_⟩
  intro q hq hmem
  exact h3 q hq (hsub.subset hmem)

theorem WF_insert {s : OnDemandCore} (now : Nat) (data : RequestData) (h : WF s) :
    WF (s.insert now data) := h

theorem WF_core_remove {s : OnDemandCore} (peer : PeerId) (id : Nat) (h : WF s) :
    WF (s.remove peer id).2 := by
  obtain ⟨h1, h2, h3⟩ := h
  unfold OnDemandCore.remove
  cases hg : lhmGet? s.active_peers peer with
  | none => exact ⟨h1, h2, h3⟩
  | some request =>
    by_cases hid : request.id == id
    · simp only [hid, if_true]
      have hp : peer ∉ s.idle_peers := by
        intro hmem
        exact h3 peer hmem (mem_keys_of_get hg)
      refine ⟨nodup_append_singleton h1 hp, ?_, ?_⟩
      · exact (keys_removeKey_sublist s.active_peers peer).nodup h2
      · intro q hq
        rcases List.mem_append.mp hq with hql | hqr
        · intro hmem
          exact h3 q hql ((keys_removeKey_sublist s.active_peers peer).subset hmem)
        · rw [List.mem_singleton.mp hqr]
          exact not_mem_keys_removeKey hg h2
    · simp only [hid, if_false]
      exact ⟨h1, h2, h3⟩

theorem dispatchLoop_WF (now : Nat) : ∀ (pending : List Request) (idle : List PeerId)
    (active : List (PeerId × Request)),
    idle.Nodup → (active.map Prod.fst).Nodup → (∀ p ∈ idle, p ∉ active.map Prod.fst) →
    ((dispatchLoop now pending idle active).2.1.Nodup ∧
     ((dispatchLoop now pending idle active).2.2.1.map Prod.fst).Nodup ∧
     (∀ p ∈ (dispatchLoop now pending idle active).2.1,
        p ∉ (dispatchLoop now pending idle active).2.2.1.map Prod.fst)) := by
  intro pending
  induction pending with
  | nil =>
    intro idle active h1 h2 h3
    simp only [dispatchLoop]
    exact ⟨h1, h2, h3⟩
  | cons r rest ih =>
    intro idle active h1 h2 h3
    cases idle with
    | nil =>
      simp only [dispatchLoop]
      exact ⟨h1, h2, h3⟩
    | cons peer restIdle =>
      obtain ⟨hp, h1'⟩ := List.nodup_cons.mp h1
      have hfresh : peer ∉ active.map Prod.fst := h3 peer (List.mem_cons_self _ _)
      have hins : lhmInsert active peer { r with timestamp := now } =
          active ++ [(peer, { r with timestamp := now })] := lhmInsert_fresh _ hfresh
      have hkeys : (lhmInsert active peer { r with timestamp := now }).map Prod.fst =
          active.map Prod.fst ++ [peer] := by rw [hins]; simp
      have h2' : ((lhmInsert active peer { r with timestamp := now }).map Prod.fst).Nodup := by
        rw [hkeys]; exact nodup_append_singleton h2 hfresh
      have h3' : ∀ q ∈ restIdle,
          q ∉ (lhmInsert active peer { r with timestamp := now }).map Prod.fst := by
        intro q hq
        rw [hkeys]
        intro hmem
        rcases List.mem_append.mp hmem with hm | hm
        · exact h3 q (List.mem_cons_of_mem _ hq) hm
        · exact hp (by rw [← List.mem_singleton.mp hm]; exact hq)
      have := ih restIdle (lhmInsert active peer { r with timestamp := now }) h1' h2' h3'
      simpa [dispatchLoop] using this

theorem WF_dispatch {s : OnDemandCore} (now : Nat) (h : WF s) : WF (s.dispatch now).1 := by
  obtain ⟨h1, h2, h3⟩ := h
  unfold OnDemandCore.dispatch
  cases halive : s.serviceAlive with
  | false => exact ⟨h1, h2, h3⟩
  | true =>
    simp only [if_true]
    exact dispatchLoop_WF now s.pending_requests s.idle_peers s.active_peers h1 h2 h3

/-! ### Equation lemmas for `accept_response` -/

theorem accept_response_eq_none (try_accept : Request → Accept × List Effect) (now : Nat)
    (peer : PeerId) (request_id : Nat) {s s1 : OnDemandCore}
    (h : s.remove peer request_id = (none, s1)) :
    accept_response try_accept now peer request_id s =
      (s1.remove_peer peer, [Effect.disconnectPeer peer]) := by
  unfold accept_response
  rw [h]

theorem accept_response_eq_ok {try_accept : Request → Accept × List Effect} (now : Nat)
    (peer : PeerId) (request_id : Nat) {s s1 : OnDemandCore} {request : Request}
    {effs : List Effect}
    (h : s.remove peer request_id = (some request, s1))
    (hta : try_accept request = (Accept.ok, effs)) :
    accept_response try_accept now peer request_id s =
      ((s1.dispatch now).1, effs ++ (s1.dispatch now).2) := by
  unfold accept_response
  rw [h]
  dsimp only
  rw [hta]

theorem accept_response_eq_fail {try_accept : Request → Accept × List Effect} (now : Nat)
    (peer : PeerId) (request_id : Nat) {s s1 : OnDemandCore} {request : Request}
    {e : Nat} {data : RequestData} {effs : List Effect}
    (h : s.remove peer request_id = (some request, s1))
    (hta : try_accept request = (Accept.checkFailed e data, effs)) :
    accept_response try_accept now peer request_id s =
      ((((s1.remove_peer peer).insert now data).dispatch now).1,
       effs ++ [Effect.disconnectPeer peer] ++
         (((s1.remove_peer peer).insert now data).dispatch now).2) := by
  unfold accept_response
  rw [h]
  dsimp only
  rw [hta]

theorem accept_response_eq_unexpected {try_accept : Request → Accept × List Effect} (now : Nat)
    (peer : PeerId) (request_id : Nat) {s s1 : OnDemandCore} {request : Request}
    {data : RequestData} {effs : List Effect}
    (h : s.remove peer request_id = (some request, s1))
    (hta : try_accept request = (Accept.unexpected data, effs)) :
    accept_response try_accept now peer request_id s =
      ((((s1.remove_peer peer).insert now data).dispatch now).1,
       effs ++ [Effect.disconnectPeer peer] ++
         (((s1.remove_peer peer).insert now data).dispatch now).2) := by
  unfold accept_response
  rw [h]
  dsimp only
  rw [hta]

theorem WF_accept {s : OnDemandCore} (try_accept : Request → Accept × List Effect)
    (now : Nat) (peer : PeerId) (request_id : Nat) (h : WF s) :
    WF (accept_response try_accept now peer request_id s).1 := by
  cases hrem : s.remove peer request_id with
  | mk o s1 =>
    have hs1 : WF s1 := by
      have := WF_core_remove peer request_id h
      rw [hrem] at this
      exact this
    cases o with
    | none =>
      rw [accept_response_eq_none try_accept now peer request_id hrem]
      exact WF_remove_peer peer hs1
    | some request =>
      cases hta : try_accept request with
      | mk acc effs =>
        cases acc with
        | ok =>
          rw [accept_response_eq_ok now peer request_id hrem hta]
          exact WF_dispatch now hs1
        | checkFailed e data =>
          rw [accept_response_eq_fail now peer request_id hrem hta]
          exact WF_dispatch now (WF_insert now data (WF_remove_peer peer hs1))
        | unexpected data =>
          rw [accept_response_eq_unexpected now peer request_id hrem hta]
          exact WF_dispatch now (WF_insert now data (WF_remove_peer peer hs1))

/-! ### Equation lemmas for `step` -/

theorem step_onDisconnect_eq (cr : CheckRead) (cc : CheckCall) (cl : Nat → Bool)
    (now : Nat) (peer : PeerId) (s : OnDemandCore) :
    step cr cc cl (Op.onDisconnect now peer) s = (s.remove_peer peer).dispatch now := rfl

theorem step_maintain_eq (cr : CheckRead) (cc : CheckCall) (cl : Nat → Bool)
    (now : Nat) (s : OnDemandCore) :
    step cr cc cl (Op.maintain now) s =
      (((s.maintain_peers now).1.dispatch now).1,
       (s.maintain_peers now).2.map Effect.disconnectPeer ++
         ((s.maintain_peers now).1.dispatch now).2) := rfl

theorem step_submitRead_eq (cr : CheckRead) (cc : CheckCall) (cl : Nat → Bool)
    (now : Nat) (req : RemoteReadRequest) (sender : Nat) (s : OnDemandCore) :
    step cr cc cl (Op.submitRead now req sender) s =
      (s.insert now (RequestData.remoteRead req sender)).dispatch now := rfl

theorem step_submitCall_eq (cr : CheckRead) (cc : CheckCall) (cl : Nat → Bool)
    (now : Nat) (req : RemoteCallRequest) (sender : Nat) (s : OnDemandCore) :
    step cr cc cl (Op.submitCall now req sender) s =
      (s.insert now (RequestData.remoteCall req sender)).dispatch now := rfl

theorem step_onReadResponse_eq (cr : CheckRead) (cc : CheckCall) (cl : Nat → Bool)
    (now : Nat) (peer : PeerId) (resp : RemoteReadResponseMsg) (s : OnDemandCore) :
    step cr cc cl (Op.onReadResponse now peer resp) s =
      accept_response (tryAcceptRead cr cl resp) now peer resp.id s := rfl

theorem step_onCallResponse_eq (cr : CheckRead) (cc : CheckCall) (cl : Nat → Bool)
    (now : Nat) (peer : PeerId) (resp : RemoteCallResponseMsg) (s : OnDemandCore) :
    step cr cc cl (Op.onCallResponse now peer resp) s =
      accept_response (tryAcceptCall cc cl resp) now peer resp.id s := rfl

theorem step_onConnect_pos (cr : CheckRead) (cc : CheckCall) (cl : Nat → Bool)
    (now : Nat) (peer : PeerId) (role : Role) (s : OnDemandCore)
    (h : role.intersectsServing = true) :
    step cr cc cl (Op.onConnect now peer role) s = (s.add_peer peer).dispatch now := by
  unfold step
  dsimp only
  rw [h]
  simp

theorem step_onConnect_neg (cr : CheckRead) (cc : CheckCall) (cl : Nat → Bool)
    (now : Nat) (peer : PeerId) (role : Role) (s : OnDemandCore)
    (h : role.intersectsServing = false) :
    step cr cc cl (Op.onConnect now peer role) s = (s, []) := by
  unfold step
  dsimp only
  rw [h]
  simp

/-! ### More field-preservation facts -/

theorem add_peer_alive (s : OnDemandCore) (peer : PeerId) :
    (s.add_peer peer).serviceAlive = s.serviceAlive := rfl

theorem insert_alive (s : OnDemandCore) (now : Nat) (data : RequestData) :
    (s.insert now data).serviceAlive = s.serviceAlive := rfl

theorem maintain_alive (s : OnDemandCore) (now : Nat) :
    ((s.maintain_peers now).1).serviceAlive = s.serviceAlive := rfl

/-! ### The matched branches of `accept_response`, resolved -/

theorem remove_eq_some {s : OnDemandCore} {peer : PeerId} {rid : Nat} {req : Request}
    (hget : lhmGet? s.active_peers peer = some req) (hid : req.id = rid) :
    s.remove peer rid =
      (some req, { s with idle_peers := s.idle_peers ++ [peer],
                          active_peers := lhmRemoveKey s.active_peers peer }) := by
  unfold OnDemandCore.remove
  rw [hget]
  simp [hid]

theorem remove_eq_none_of_get_none {s : OnDemandCore} {peer : PeerId} (rid : Nat)
    (hget : lhmGet? s.active_peers peer = none) :
    s.remove peer rid = (none, s) := by
  unfold OnDemandCore.remove
  rw [hget]

theorem remove_eq_none_of_id_ne {s : OnDemandCore} {peer : PeerId} {rid : Nat} {req : Request}
    (hget : lhmGet? s.active_peers peer = some req) (hid : req.id ≠ rid) :
    s.remove peer rid = (none, s) := by
  unfold OnDemandCore.remove
  rw [hget]
  simp [hid]

theorem not_mem_keys_iff {m : List (PeerId × Request)} {k : PeerId} :
    k ∉ m.map Prod.fst ↔ ∀ e ∈ m, e.1 ≠ k := by
  constructor
  · intro h e he hc
    exact h (List.mem_map.mpr ⟨e, he, hc⟩)
  · intro h hmem
    obtain ⟨e, he, hk⟩ := List.mem_map.mp hmem
    exact h e he hk

theorem accept_ok_spec {f : Request → Accept × List Effect} (now : Nat) (peer : PeerId)
    (rid : Nat) {s : OnDemandCore} {req : Request} {effs : List Effect}
    (hpend : s.pending_requests = [])
    (hget : lhmGet? s.active_peers peer = some req) (hid : req.id = rid)
    (hf : f req = (Accept.ok, effs)) :
    accept_response f now peer rid s =
      ({ s with active_peers := lhmRemoveKey s.active_peers peer,
                idle_peers := s.idle_peers ++ [peer] }, effs) := by
  rw [accept_response_eq_ok now peer rid (remove_eq_some hget hid) hf]
  rw [dispatch_of_pending_nil now (by simpa using hpend)]
  simp

theorem accept_retry_spec {f : Request → Accept × List Effect} (now : Nat) (peer : PeerId)
    (rid : Nat) (e : Nat) {s : OnDemandCore} {req : Request} {data : RequestData}
    (hWF : WF s) (hidle : s.idle_peers = [])
    (hget : lhmGet? s.active_peers peer = some req) (hid : req.id = rid)
    (hf : f req = (Accept.checkFailed e data, []) ∨ f req = (Accept.unexpected data, [])) :
    accept_response f now peer rid s =
      ({ s with active_peers := lhmRemoveKey s.active_peers peer,
                idle_peers := [],
                pending_requests := s.pending_requests ++
                  [{ id := s.next_request_id, timestamp := now, data := data }],
                next_request_id := s.next_request_id + 1 },
       [Effect.disconnectPeer peer]) := by
  have hrem := remove_eq_some hget hid
  set s1 : OnDemandCore :=
    { s with idle_peers := s.idle_peers ++ [peer],
             active_peers := lhmRemoveKey s.active_peers peer } with hs1
  have hkeys : peer ∉ (lhmRemoveKey s.active_peers peer).map Prod.fst :=
    not_mem_keys_removeKey hget hWF.2.1
  have hget1 : lhmGet? s1.active_peers peer = none :=
    lhmGet?_of_not_mem (not_mem_keys_iff.mp hkeys)
  have hidx : s1.idle_peers.findIdx? (fun i => i == peer) = some 0 := by
    show (s.idle_peers ++ [peer]).findIdx? (fun i => i == peer) = some 0
    rw [hidle]
    simp [List.findIdx?_cons]
  have hswap : swapRemoveBack s1.idle_peers 0 = [] := by
    show swapRemoveBack (s.idle_peers ++ [peer]) 0 = []
    rw [hidle]
    simp [swapRemoveBack]
  have hrp : s1.remove_peer peer = { s1 with idle_peers := [] } := by
    unfold OnDemandCore.remove_peer
    rw [hget1, hidx]
    dsimp only
    rw [hswap]
  have hins : (s1.remove_peer peer).insert now data =
      { s with active_peers := lhmRemoveKey s.active_peers peer,
               idle_peers := [],
               pending_requests := s.pending_requests ++
                 [{ id := s.next_request_id, timestamp := now, data := data }],
               next_request_id := s.next_request_id + 1 } := by
    rw [hrp]
    rfl
  have hidle2 : ((s1.remove_peer peer).insert now data).idle_peers = [] := by rw [hins]
  have hdisp := dispatch_of_idle_nil now hidle2
  rcases hf with hf | hf
  · rw [accept_response_eq_fail now peer rid hrem hf, hdisp, hins]
    simp
  · rw [accept_response_eq_unexpected now peer rid hrem hf, hdisp, hins]
    simp

/-! ### Reduction lemmas for the response-acceptance closures -/

theorem tryAcceptCall_ok {checkCall : CheckCall} {closed : Nat → Bool}
    {resp : RemoteCallResponseMsg} {req : Request} {creq : RemoteCallRequest} {sender : Nat}
    {result : CallResult}
    (hdata : req.data = RequestData.remoteCall creq sender)
    (hcheck : checkCall creq (resp.value, resp.proof) = Except.ok result) :
    tryAcceptCall checkCall closed resp req =
      (Accept.ok, oneshotSend (closed sender) sender (SinkPayload.callPayload result)) := by
  unfold tryAcceptCall
  rw [hdata]
  dsimp only
  rw [hcheck]

theorem tryAcceptCall_fail {checkCall : CheckCall} {closed : Nat → Bool}
    {resp : RemoteCallResponseMsg} {req : Request} {creq : RemoteCallRequest} {sender : Nat}
    {e : Nat}
    (hdata : req.data = RequestData.remoteCall creq sender)
    (hcheck : checkCall creq (resp.value, resp.proof) = Except.error e) :
    tryAcceptCall checkCall closed resp req =
      (Accept.checkFailed e (RequestData.remoteCall creq sender), []) := by
  unfold tryAcceptCall
  rw [hdata]
  dsimp only
  rw [hcheck]

theorem tryAcceptRead_ok {checkRead : CheckRead} {closed : Nat → Bool}
    {resp : RemoteReadResponseMsg} {req : Request} {rreq : RemoteReadRequest} {sender : Nat}
    {result : Option (List Nat)}
    (hdata : req.data = RequestData.remoteRead rreq sender)
    (hcheck : checkRead rreq resp.proof = Except.ok result) :
    tryAcceptRead checkRead closed resp req =
      (Accept.ok, oneshotSend (closed sender) sender (SinkPayload.readPayload result)) := by
  unfold tryAcceptRead
  rw [hdata]
  dsimp only
  rw [hcheck]

theorem tryAcceptRead_fail {checkRead : CheckRead} {closed : Nat → Bool}
    {resp : RemoteReadResponseMsg} {req : Request} {rreq : RemoteReadRequest} {sender : Nat}
    {e : Nat}
    (hdata : req.data = RequestData.remoteRead rreq sender)
    (hcheck : checkRead rreq resp.proof = Except.error e) :
    tryAcceptRead checkRead closed resp req =
      (Accept.checkFailed e (RequestData.remoteRead rreq sender), []) := by
  unfold tryAcceptRead
  rw [hdata]
  dsimp only
  rw [hcheck]

theorem tryAcceptRead_unexpected {checkRead : CheckRead} {closed : Nat → Bool}
    {resp : RemoteReadResponseMsg} {req : Request} {creq : RemoteCallRequest} {sender : Nat}
    (hdata : req.data = RequestData.remoteCall creq sender) :
    tryAcceptRead checkRead closed resp req =
      (Accept.unexpected (RequestData.remoteCall creq sender), []) := by
  unfold tryAcceptRead
  rw [hdata]

theorem tryAcceptCall_unexpected {checkCall : CheckCall} {closed : Nat → Bool}
    {resp : RemoteCallResponseMsg} {req : Request} {rreq : RemoteReadRequest} {sender : Nat}
    (hdata : req.data = RequestData.remoteRead rreq sender) :
    tryAcceptCall checkCall closed resp req =
      (Accept.unexpected (RequestData.remoteRead rreq sender), []) := by
  unfold tryAcceptCall
  rw [hdata]

/-! ### Preservation of the pairing invariant -/

theorem remove_peer_paired_of_get_none {s : OnDemandCore} {peer : PeerId}
    (hget : lhmGet? s.active_peers peer = none) (hp : Paired s) :
    Paired (s.remove_peer peer) := by
  unfold OnDemandCore.remove_peer
  rw [hget]
  cases hidx : s.idle_peers.findIdx? (fun i => i == peer) with
  | none => exact hp
  | some i =>
    rcases hp with hp | hp
    · exact Or.inl hp
    · rw [hp] at hidx
      simp [List.findIdx?_nil] at hidx

theorem accept_response_paired (f : Request → Accept × List Effect) (now : Nat)
    (peer : PeerId) (rid : Nat) (s : OnDemandCore) (halive : s.serviceAlive = true)
    (hmatch : (s.remove peer rid).1.isSome ∨ lhmGet? s.active_peers peer = none)
    (hpaired : Paired s) :
    Paired (accept_response f now peer rid s).1 := by
  cases hrem : s.remove peer rid with
  | mk o s1 =>
    have halive1 : s1.serviceAlive = true := by
      have := (remove_snd_fields s peer rid).1
      rw [hrem] at this
      rw [this]
      exact halive
    cases o with
    | none =>
      have hget : lhmGet? s.active_peers peer = none := by
        rcases hmatch with hm | hm
        · rw [hrem] at hm
          simp at hm
        · exact hm
      have hs1 : s1 = s := by
        have := remove_eq_none_of_get_none rid hget
        rw [hrem] at this
        exact (Prod.mk.injEq _ _ _ _).mp this.symm |>.2.symm
      rw [accept_response_eq_none f now peer rid hrem, hs1]
      exact remove_peer_paired_of_get_none hget hpaired
    | some request =>
      cases hta : f request with
      | mk acc effs =>
        cases acc with
        | ok =>
          rw [accept_response_eq_ok now peer rid hrem hta]
          exact dispatch_paired s1 now halive1
        | checkFailed e data =>
          rw [accept_response_eq_fail now peer rid hrem hta]
          refine dispatch_paired _ now ?_
          rw [insert_alive, (remove_peer_fields s1 peer).1]
          exact halive1
        | unexpected data =>
          rw [accept_response_eq_unexpected now peer rid hrem hta]
          refine dispatch_paired _ now ?_
          rw [insert_alive, (remove_peer_fields s1 peer).1]
          exact halive1

/-! ### Claim C1 -/

/-- C1, counterexample: with the executor alive, two serving peers and one
in-flight request, a call response carrying a wrong id leaves the requeued
request in the pending queue while a peer sits idle, because the unmatched
branch of `accept_response` returns without running `dispatch`. -/
theorem C1_counterexample :
    (run checkReadOk checkCallOk noSinkClosed (initialCore true)
        [Op.onConnect 0 1 roleFull, Op.onConnect 0 2 roleFull, Op.submitCall 0 creqT 7,
         Op.onCallResponse 1 1 { id := 5, value := [1], proof := [[2]] }]).pending_requests ≠
        [] ∧
    (run checkReadOk checkCallOk noSinkClosed (initialCore true)
        [Op.onConnect 0 1 roleFull, Op.onConnect 0 2 roleFull, Op.submitCall 0 creqT 7,
         Op.onCallResponse 1 1 { id := 5, value := [1], proof := [[2]] }]).idle_peers ≠ [] ∧
    (run checkReadOk checkCallOk noSinkClosed (initialCore true)
        [Op.onConnect 0 1 roleFull, Op.onConnect 0 2 roleFull, Op.submitCall 0 creqT 7,
         Op.onCallResponse 1 1 { id := 5, value := [1], proof := [[2]] }]).serviceAlive =
        true := by
  refine ⟨?_, ?_, ?_⟩ <;> decide

/-- C1, amended: while the service link is alive, every public operation
other than an `on_response` whose (peer, id) pair fails to match the
active entry of a still-active peer re-establishes the pairing invariant
(pending empty or idle empty); and whenever both queues are non-empty on
entry to `dispatch` with the link alive, at least one request is paired
with a peer (a send effect is emitted). -/
theorem C1_pairing_invariant :
    (∀ (checkRead : CheckRead) (checkCall : CheckCall) (closed : Nat → Bool) (op : Op)
        (s : OnDemandCore),
        s.serviceAlive = true → Paired s →
        (∀ now peer resp, op = Op.onReadResponse now peer resp →
          ((s.remove peer resp.id).1.isSome ∨ lhmGet? s.active_peers peer = none)) →
        (∀ now peer resp, op = Op.onCallResponse now peer resp →
          ((s.remove peer resp.id).1.isSome ∨ lhmGet? s.active_peers peer = none)) →
        Paired (step checkRead checkCall closed op s).1) ∧
    (∀ (now : Nat) (s : OnDemandCore), s.serviceAlive = true →
        s.pending_requests ≠ [] → s.idle_peers ≠ [] → (s.dispatch now).2 ≠ []) := by
  constructor
  · intro checkRead checkCall closed op s halive hpaired hread hcall
    cases op with
    | onConnect now peer role =>
      cases hrole : role.intersectsServing with
      | false =>
        rw [step_onConnect_neg checkRead checkCall closed now peer role s hrole]
        exact hpaired
      | true =>
        rw [step_onConnect_pos checkRead checkCall closed now peer role s hrole]
        exact dispatch_paired _ now (by rw [add_peer_alive]; exact halive)
    | onDisconnect now peer =>
      rw [step_onDisconnect_eq]
      exact dispatch_paired _ now (by rw [(remove_peer_fields s peer).1]; exact halive)
    | maintain now =>
      rw [step_maintain_eq]
      exact dispatch_paired _ now (by rw [maintain_alive]; exact halive)
    | submitRead now req sender =>
      rw [step_submitRead_eq]
      exact dispatch_paired _ now (by rw [insert_alive]; exact halive)
    | submitCall now req sender =>
      rw [step_submitCall_eq]
      exact dispatch_paired _ now (by rw [insert_alive]; exact halive)
    | onReadResponse now peer resp =>
      rw [step_onReadResponse_eq]
      exact accept_response_paired _ now peer resp.id s halive
        (hread now peer resp rfl) hpaired
    | onCallResponse now peer resp =>
      rw [step_onCallResponse_eq]
      exact accept_response_paired _ now peer resp.id s halive
        (hcall now peer resp rfl) hpaired
  · intro now s halive hp hi
    unfold OnDemandCore.dispatch
    rw [halive]
    simp only [if_true, dispatchLoop_effects]
    cases hpc : s.pending_requests with
    | nil => exact absurd hpc hp
    | cons r rest =>
      cases hic : s.idle_peers with
      | nil => exact absurd hic hi
      | cons p restIdle => simp

/-- Witness for C1: a connect on the empty initial dispatcher keeps the
pairing invariant. -/
theorem C1_pairing_invariant_witness :
    Paired (step checkReadOk checkCallOk noSinkClosed (Op.onConnect 0 1 roleFull)
      (initialCore true)).1 :=
  C1_pairing_invariant.1 checkReadOk checkCallOk noSinkClosed (Op.onConnect 0 1 roleFull)
    (initialCore true) rfl (Or.inl rfl) (fun _ _ _ h => nomatch h) (fun _ _ _ h => nomatch h)

/-! ### Claim C2 -/

/-- C2, counterexample: peer 5 serves request 0 while request 1 waits in
the queue; a correctly-id'd but verifier-rejected response re-enters the
request's data through `insert`, so the pending queue afterwards holds
ids [1, 2]: the original Request (id 0) is not at the front — a fresh
Request with a new id sits at the back. -/
theorem C2_counterexample :
    ((run checkReadOk checkCallFail noSinkClosed (initialCore true)
        [Op.onConnect 0 5 roleFull, Op.submitCall 0 creqT 7, Op.submitCall 0 creqT 8,
         Op.onCallResponse 1 5 { id := 0, value := [1], proof := [[2]] }]).pending_requests.map
      Request.id = [1, 2]) ∧
    (((run checkReadOk checkCallFail noSinkClosed (initialCore true)
        [Op.onConnect 0 5 roleFull, Op.submitCall 0 creqT 7, Op.submitCall 0 creqT 8,
         Op.onCallResponse 1 5 { id := 0, value := [1], proof := [[2]] }]).pending_requests.map
      Request.id).head? ≠ some 0) := by
  refine ⟨?_, ?_⟩ <;> decide

/-- C2, amended: on a matching response whose verification fails
(CheckFailed), and likewise on a kind mismatch (Unexpected), the peer is
disconnected and removed from the registry, and the request's data
(payload and completion sink) is re-inserted at the BACK of the pending
queue as a fresh Request carrying a new id and timestamp; the only
observable effect is the disconnect, so the consumer sees no error.
(Stated for a dispatcher with no other idle peer, so that the final
dispatch is inert and the requeue is visible.) -/
theorem C2_amended :
    (∀ (checkRead : CheckRead) (checkCall : CheckCall) (closed : Nat → Bool) (now : Nat)
        (peer : PeerId) (resp : RemoteCallResponseMsg) (s : OnDemandCore) (req : Request)
        (creq : RemoteCallRequest) (sender : Nat) (e : Nat),
        WF s → s.idle_peers = [] →
        lhmGet? s.active_peers peer = some req → req.id = resp.id →
        req.data = RequestData.remoteCall creq sender →
        checkCall creq (resp.value, resp.proof) = Except.error e →
        step checkRead checkCall closed (Op.onCallResponse now peer resp) s =
          ({ s with active_peers := lhmRemoveKey s.active_peers peer,
                    idle_peers := [],
                    pending_requests := s.pending_requests ++
                      [{ id := s.next_request_id, timestamp := now,
                         data := RequestData.remoteCall creq sender }],
                    next_request_id := s.next_request_id + 1 },
           [Effect.disconnectPeer peer]) ∧
        peer ∉ activeKeys
          (step checkRead checkCall closed (Op.onCallResponse now peer resp) s).1) ∧
    (∀ (checkRead : CheckRead) (checkCall : CheckCall) (closed : Nat → Bool) (now : Nat)
        (peer : PeerId) (resp : RemoteReadResponseMsg) (s : OnDemandCore) (req : Request)
        (creq : RemoteCallRequest) (sender : Nat),
        WF s → s.idle_peers = [] →
        lhmGet? s.active_peers peer = some req → req.id = resp.id →
        req.data = RequestData.remoteCall creq sender →
        step checkRead checkCall closed (Op.onReadResponse now peer resp) s =
          ({ s with active_peers := lhmRemoveKey s.active_peers peer,
                    idle_peers := [],
                    pending_requests := s.pending_requests ++
                      [{ id := s.next_request_id, timestamp := now,
                         data := RequestData.remoteCall creq sender }],
                    next_request_id := s.next_request_id + 1 },
           [Effect.disconnectPeer peer]) ∧
        peer ∉ activeKeys
          (step checkRead checkCall closed (Op.onReadResponse now peer resp) s).1) := by
  constructor
  · intro checkRead checkCall closed now peer resp s req creq sender e hWF hidle hget hid
      hdata hcheck
    have heq : step checkRead checkCall closed (Op.onCallResponse now peer resp) s =
        ({ s with active_peers := lhmRemoveKey s.active_peers peer,
                  idle_peers := [],
                  pending_requests := s.pending_requests ++
                    [{ id := s.next_request_id, timestamp := now,
                       data := RequestData.remoteCall creq sender }],
                  next_request_id := s.next_request_id + 1 },
         [Effect.disconnectPeer peer]) := by
      rw [step_onCallResponse_eq]
      exact accept_retry_spec now peer resp.id e hWF hidle hget hid
        (Or.inl (tryAcceptCall_fail hdata hcheck))
    refine ⟨heq, ?_⟩
    rw [heq]
    exact not_mem_keys_removeKey hget hWF.2.1
  · intro checkRead checkCall closed now peer resp s req creq sender hWF hidle hget hid hdata
    have heq : step checkRead checkCall closed (Op.onReadResponse now peer resp) s =
        ({ s with active_peers := lhmRemoveKey s.active_peers peer,
                  idle_peers := [],
                  pending_requests := s.pending_requests ++
                    [{ id := s.next_request_id, timestamp := now,
                       data := RequestData.remoteCall creq sender }],
                  next_request_id := s.next_request_id + 1 },
         [Effect.disconnectPeer peer]) := by
      rw [step_onReadResponse_eq]
      exact accept_retry_spec now peer resp.id 0 hWF hidle hget hid
        (Or.inr (tryAcceptRead_unexpected hdata))
    refine ⟨heq, ?_⟩
    rw [heq]
    exact not_mem_keys_removeKey hget hWF.2.1

/-- Witness for C2: the verifier-rejected call response on the concrete
state `coreW` requeues the request data at the back with id 2. -/
theorem C2_amended_witness :
    step checkReadOk checkCallFail noSinkClosed
        (Op.onCallResponse 1 5 { id := 0, value := [1], proof := [[2]] }) coreW =
      ({ coreW with active_peers := lhmRemoveKey coreW.active_peers 5,
                    idle_peers := [],
                    pending_requests := coreW.pending_requests ++
                      [{ id := coreW.next_request_id, timestamp := 1,
                         data := RequestData.remoteCall creqT 7 }],
                    next_request_id := coreW.next_request_id + 1 },
       [Effect.disconnectPeer 5]) ∧
    5 ∉ activeKeys (step checkReadOk checkCallFail noSinkClosed
        (Op.onCallResponse 1 5 { id := 0, value := [1], proof := [[2]] }) coreW).1 :=
  C2_amended.1 checkReadOk checkCallFail noSinkClosed 1 5
    { id := 0, value := [1], proof := [[2]] } coreW reqT0 creqT 7 0
    (by simp [WF, coreW, activeKeys]) rfl rfl rfl rfl rfl

/-! ### Claim C3 -/

/-- C3, counterexample: peers 1, 2, 3 are admitted in that order; peer 1
(idle) disconnects, which swap-removes it, moving the back peer 3 into
the front slot.  The next submission is dispatched to peer 3, although
FIFO admission order (the claim) would demand peer 2. -/
theorem C3_counterexample :
    ((run checkReadOk checkCallOk noSinkClosed (initialCore true)
        [Op.onConnect 0 1 roleFull, Op.onConnect 0 2 roleFull, Op.onConnect 0 3 roleFull,
         Op.onDisconnect 0 1, Op.submitCall 0 creqT 7]).active_peers.map Prod.fst = [3]) ∧
    ((run checkReadOk checkCallOk noSinkClosed (initialCore true)
        [Op.onConnect 0 1 roleFull, Op.onConnect 0 2 roleFull, Op.onConnect 0 3 roleFull,
         Op.onDisconnect 0 1, Op.submitCall 0 creqT 7]).idle_peers = [2]) := by
  refine ⟨?_, ?_⟩ <;> decide

/-- C3, amended: the dispatch loop pairs pending requests in queue order
against the CURRENT front-to-back order of the idle deque — the i-th
pending request is sent to the i-th idle peer, the paired front segments
are consumed and the unpaired tails remain.  (The idle deque order equals
admission order only in the absence of interior removals: `remove_peer`
swap-removes, moving the back peer into the vacated slot.) -/
theorem C3_amended :
    ∀ (now : Nat) (pending : List Request) (idle : List PeerId)
      (active : List (PeerId × Request)),
      (dispatchLoop now pending idle active).2.2.2 =
        List.zipWith
          (fun r p => Effect.sendMessage p ({ r with timestamp := now } : Request).message)
          pending idle ∧
      (dispatchLoop now pending idle active).1 = pending.drop idle.length ∧
      (dispatchLoop now pending idle active).2.1 = idle.drop pending.length :=
  fun now pending idle active =>
    ⟨dispatchLoop_effects now pending idle active,
     dispatchLoop_pending now pending idle active,
     dispatchLoop_idle now pending idle active⟩

/-! ### Claim C4 -/

/-- C4, counterexample: two on_connect calls for the same peer id put the
peer twice into the idle sequence — `add_peer` is an unconditional
push_back. -/
theorem C4_counterexample :
    ((run checkReadOk checkCallOk noSinkClosed (initialCore true)
        [Op.onConnect 0 0 roleFull, Op.onConnect 0 0 roleFull]).idle_peers = [0, 0]) ∧
    ¬ ((run checkReadOk checkCallOk noSinkClosed (initialCore true)
        [Op.onConnect 0 0 roleFull, Op.onConnect 0 0 roleFull]).idle_peers.Nodup) := by
  refine ⟨?_, ?_⟩ <;> decide

/-- C4, amended: registry well-formedness — idle peers pairwise distinct,
active keys pairwise distinct, and the two collections disjoint — is
preserved by every public operation, PROVIDED on_connect is only invoked
for a peer not already known (not idle and not active).  The transport
layer guarantees that proviso; the dispatcher itself does not. -/
theorem C4_amended :
    ∀ (checkRead : CheckRead) (checkCall : CheckCall) (closed : Nat → Bool) (op : Op)
      (s : OnDemandCore),
      WF s →
      (∀ now peer role, op = Op.onConnect now peer role →
         peer ∉ s.idle_peers ∧ peer ∉ activeKeys s) →
      WF (step checkRead checkCall closed op s).1 := by
  intro checkRead checkCall closed op s hWF hconn
  cases op with
  | onConnect now peer role =>
    obtain ⟨hidle, hact⟩ := hconn now peer role rfl
    cases hrole : role.intersectsServing with
    | false =>
      rw [step_onConnect_neg checkRead checkCall closed now peer role s hrole]
      exact hWF
    | true =>
      rw [step_onConnect_pos checkRead checkCall closed now peer role s hrole]
      exact WF_dispatch now (WF_add_peer hWF hidle hact)
  | onDisconnect now peer =>
    rw [step_onDisconnect_eq]
    exact WF_dispatch now (WF_remove_peer peer hWF)
  | maintain now =>
    rw [step_maintain_eq]
    exact WF_dispatch now (WF_maintain now hWF)
  | submitRead now req sender =>
    rw [step_submitRead_eq]
    exact WF_dispatch now (WF_insert now _ hWF)
  | submitCall now req sender =>
    rw [step_submitCall_eq]
    exact WF_dispatch now (WF_insert now _ hWF)
  | onReadResponse now peer resp =>
    rw [step_onReadResponse_eq]
    exact WF_accept _ now peer resp.id hWF
  | onCallResponse now peer resp =>
    rw [step_onCallResponse_eq]
    exact WF_accept _ now peer resp.id hWF

/-- Witness for C4: admitting a fresh peer into the empty dispatcher
preserves registry well-formedness. -/
theorem C4_amended_witness :
    WF (step checkReadOk checkCallOk noSinkClosed (Op.onConnect 0 1 roleFull)
      (initialCore true)).1 :=
  C4_amended checkReadOk checkCallOk noSinkClosed (Op.onConnect 0 1 roleFull)
    (initialCore true) (by simp [WF, initialCore, activeKeys])
    (fun now peer role h => by
      injection h with h1 h2 h3
      subst h2
      simp [initialCore, activeKeys])

/-! ### Claim C5 -/

/-- C5, counterexample: a front active entry whose age is EXACTLY
`REQUEST_TIMEOUT` (not older) is nevertheless evicted — the source tests
`now - timestamp >= REQUEST_TIMEOUT`, not a strict inequality. -/
theorem C5_counterexample :
    ((coreT.maintain_peers REQUEST_TIMEOUT).2 = [4]) ∧
    ¬ (REQUEST_TIMEOUT < REQUEST_TIMEOUT - reqT0.timestamp) := by
  refine ⟨?_, ?_⟩ <;> decide

/-- C5, amended: `maintain_peers` evicts exactly the maximal front
segment of the active map whose entries have aged AT LEAST
`REQUEST_TIMEOUT` (15 s, inclusive bound) at the call's clock reading:
their requests go to the pending queue's front, the evicted ids are
returned (and each is disconnected at the transport by the public
operation), the scan stops at the first non-expired entry and never looks
behind it. -/
theorem C5_amended :
    ∀ (now : Nat) (s : OnDemandCore),
      (s.maintain_peers now).2 = (s.active_peers.takeWhile (expiredB now)).map Prod.fst ∧
      (s.maintain_peers now).1.active_peers = s.active_peers.dropWhile (expiredB now) ∧
      (s.maintain_peers now).1.pending_requests =
        ((s.active_peers.takeWhile (expiredB now)).map Prod.snd).reverse ++
          s.pending_requests ∧
      (s.maintain_peers now).1.idle_peers = s.idle_peers ∧
      (∀ e ∈ s.active_peers.takeWhile (expiredB now),
         REQUEST_TIMEOUT ≤ now - e.2.timestamp) ∧
      (∀ e rest, s.active_peers.dropWhile (expiredB now) = e :: rest →
         ¬ REQUEST_TIMEOUT ≤ now - e.2.timestamp) ∧
      (∀ (checkRead : CheckRead) (checkCall : CheckCall) (closed : Nat → Bool), ∃ tail,
         (step checkRead checkCall closed (Op.maintain now) s).2 =
           ((s.maintain_peers now).2).map Effect.disconnectPeer ++ tail) := by
  intro now s
  refine ⟨?_, ?_, ?_, ?_, ?_, ?_, ?_⟩
  · unfold OnDemandCore.maintain_peers
    rw [maintainLoop_spec]
  · unfold OnDemandCore.maintain_peers
    rw [maintainLoop_spec]
  · unfold OnDemandCore.maintain_peers
    rw [maintainLoop_spec]
  · rfl
  · intro e he
    have := List.mem_takeWhile_imp he
    exact of_decide_eq_true this
  · intro e rest hdrop
    have hmatch := List.head?_dropWhile_not (expiredB now) s.active_peers
    rw [hdrop] at hmatch
    simp only [List.head?_cons] at hmatch
    intro hle
    have : expiredB now e = true := decide_eq_true hle
    rw [this] at hmatch
    exact absurd hmatch (by simp)
  · intro checkRead checkCall closed
    exact ⟨((s.maintain_peers now).1.dispatch now).2, by rw [step_maintain_eq]⟩

/-- Witness for C5: the single entry of `coreT`, aged exactly the
timeout, satisfies the inclusive expiry bound. -/
theorem C5_amended_witness :
    REQUEST_TIMEOUT ≤ REQUEST_TIMEOUT - reqT0.timestamp :=
  (C5_amended REQUEST_TIMEOUT coreT).2.2.2.2.1 (4, reqT0) (by decide)

/-! ### Claim C6 -/

/-- C6, confirmed: a response from a peer that is absent from the active
map, or active with a different stored request id, disconnects the peer
and removes it from the registry entirely (it is NOT re-idled); in the
id-mismatch case the bound request — the same Request value, completion
sink included — is pushed to the front of the pending queue. -/
theorem C6_confirmed :
    ∀ (try_accept : Request → Accept × List Effect) (now : Nat) (peer : PeerId) (rid : Nat)
      (s : OnDemandCore), WF s →
      ((lhmGet? s.active_peers peer = none →
          accept_response try_accept now peer rid s =
            (s.remove_peer peer, [Effect.disconnectPeer peer]) ∧
          (s.remove_peer peer).active_peers = s.active_peers ∧
          (s.remove_peer peer).pending_requests = s.pending_requests ∧
          peer ∉ (s.remove_peer peer).idle_peers ∧
          peer ∉ activeKeys (s.remove_peer peer)) ∧
       (∀ req, lhmGet? s.active_peers peer = some req → req.id ≠ rid →
          accept_response try_accept now peer rid s =
            ({ s with active_peers := lhmRemoveKey s.active_peers peer,
                      pending_requests := req :: s.pending_requests },
             [Effect.disconnectPeer peer]) ∧
          peer ∉ s.idle_peers ∧
          peer ∉ activeKeys ({ s with active_peers := lhmRemoveKey s.active_peers peer,
                                      pending_requests := req :: s.pending_requests } :
                             OnDemandCore))) := by
  intro try_accept now peer rid s hWF
  constructor
  · intro hget
    obtain ⟨hni, hsub, hnd, hact, hpend, _, _⟩ := remove_peer_idle_branch hget hWF.1
    refine ⟨?_, hact, hpend, hni, ?_⟩
    · exact accept_response_eq_none try_accept now peer rid
        (remove_eq_none_of_get_none rid hget)
    · rw [show activeKeys (s.remove_peer peer) = (s.remove_peer peer).active_peers.map
          Prod.fst from rfl, hact]
      exact not_mem_keys_iff.mpr (lhmGet?_eq_none hget)
  · intro req hget hid
    have hrp : s.remove_peer peer =
        { s with active_peers := lhmRemoveKey s.active_peers peer,
                 pending_requests := req :: s.pending_requests } := by
      unfold OnDemandCore.remove_peer
      rw [hget]
    refine ⟨?_, ?_, ?_⟩
    · rw [accept_response_eq_none try_accept now peer rid
        (remove_eq_none_of_id_ne hget hid), hrp]
    · intro hmem
      exact hWF.2.2 peer hmem (mem_keys_of_get hget)
    · exact not_mem_keys_removeKey hget hWF.2.1

/-- Witness for C6: a response from the unknown peer 7 on the concrete
state `coreW` only disconnects; nothing is requeued or re-idled. -/
theorem C6_confirmed_witness :
    accept_response (tryAcceptCall checkCallOk noSinkClosed { id := 0, value := [], proof := [] })
        1 7 0 coreW =
      (coreW.remove_peer 7, [Effect.disconnectPeer 7]) ∧
    (coreW.remove_peer 7).active_peers = coreW.active_peers ∧
    (coreW.remove_peer 7).pending_requests = coreW.pending_requests ∧
    7 ∉ (coreW.remove_peer 7).idle_peers ∧
    7 ∉ activeKeys (coreW.remove_peer 7) :=
  (C6_confirmed (tryAcceptCall checkCallOk noSinkClosed { id := 0, value := [], proof := [] })
    1 7 0 coreW (by simp [WF, coreW, activeKeys])).1 rfl

/-! ### Claim C7 -/

/-- C7, confirmed: on a response whose peer and id match the active entry,
whose kind matches the request kind and whose proof the verifier accepts,
the entry leaves the active map, the peer is appended to the idle tail,
and the verified payload is sent to the completion sink exactly as the
verifier returned it; if the sink is closed the send is silently dropped
and the state transition is identical — the peer is still re-idled.
(Stated with an empty pending queue so that the final dispatch is inert
and the re-idled peer is visible.) -/
theorem C7_confirmed :
    (∀ (checkRead : CheckRead) (checkCall : CheckCall) (closed : Nat → Bool) (now : Nat)
        (peer : PeerId) (resp : RemoteCallResponseMsg) (s : OnDemandCore) (req : Request)
        (creq : RemoteCallRequest) (sender : Nat) (result : CallResult),
        s.pending_requests = [] →
        lhmGet? s.active_peers peer = some req → req.id = resp.id →
        req.data = RequestData.remoteCall creq sender →
        checkCall creq (resp.value, resp.proof) = Except.ok result →
        step checkRead checkCall closed (Op.onCallResponse now peer resp) s =
          ({ s with active_peers := lhmRemoveKey s.active_peers peer,
                    idle_peers := s.idle_peers ++ [peer] },
           oneshotSend (closed sender) sender (SinkPayload.callPayload result)) ∧
        (closed sender = false →
          (step checkRead checkCall closed (Op.onCallResponse now peer resp) s).2 =
            [Effect.sinkSend sender (SinkPayload.callPayload result)]) ∧
        (closed sender = true →
          (step checkRead checkCall closed (Op.onCallResponse now peer resp) s).2 = [])) ∧
    (∀ (checkRead : CheckRead) (checkCall : CheckCall) (closed : Nat → Bool) (now : Nat)
        (peer : PeerId) (resp : RemoteReadResponseMsg) (s : OnDemandCore) (req : Request)
        (rreq : RemoteReadRequest) (sender : Nat) (result : Option (List Nat)),
        s.pending_requests = [] →
        lhmGet? s.active_peers peer = some req → req.id = resp.id →
        req.data = RequestData.remoteRead rreq sender →
        checkRead rreq resp.proof = Except.ok result →
        step checkRead checkCall closed (Op.onReadResponse now peer resp) s =
          ({ s with active_peers := lhmRemoveKey s.active_peers peer,
                    idle_peers := s.idle_peers ++ [peer] },
           oneshotSend (closed sender) sender (SinkPayload.readPayload result)) ∧
        (closed sender = false →
          (step checkRead checkCall closed (Op.onReadResponse now peer resp) s).2 =
            [Effect.sinkSend sender (SinkPayload.readPayload result)]) ∧
        (closed sender = true →
          (step checkRead checkCall closed (Op.onReadResponse now peer resp) s).2 = [])) := by
  constructor
  · intro checkRead checkCall closed now peer resp s req creq sender result hpend hget hid
      hdata hcheck
    have heq : step checkRead checkCall closed (Op.onCallResponse now peer resp) s =
        ({ s with active_peers := lhmRemoveKey s.active_peers peer,
                  idle_peers := s.idle_peers ++ [peer] },
         oneshotSend (closed sender) sender (SinkPayload.callPayload result)) := by
      rw [step_onCallResponse_eq]
      exact accept_ok_spec now peer resp.id hpend hget hid (tryAcceptCall_ok hdata hcheck)
    refine ⟨heq, ?_, ?_⟩
    · intro hcl
      rw [heq]
      simp [oneshotSend, hcl]
    · intro hcl
      rw [heq]
      simp [oneshotSend, hcl]
  · intro checkRead checkCall closed now peer resp s req rreq sender result hpend hget hid
      hdata hcheck
    have heq : step checkRead checkCall closed (Op.onReadResponse now peer resp) s =
        ({ s with active_peers := lhmRemoveKey s.active_peers peer,
                  idle_peers := s.idle_peers ++ [peer] },
         oneshotSend (closed sender) sender (SinkPayload.readPayload result)) := by
      rw [step_onReadResponse_eq]
      exact accept_ok_spec now peer resp.id hpend hget hid (tryAcceptRead_ok hdata hcheck)
    refine ⟨heq, ?_, ?_⟩
    · intro hcl
      rw [heq]
      simp [oneshotSend, hcl]
    · intro hcl
      rw [heq]
      simp [oneshotSend, hcl]

/-- Witness for C7: peer 4's accepted response on `coreT` re-idles the
peer and delivers the verifier's payload to sink 7. -/
theorem C7_confirmed_witness :
    step checkReadOk checkCallOk noSinkClosed
        (Op.onCallResponse 1 4 { id := 0, value := [1], proof := [[2]] }) coreT =
      ({ coreT with active_peers := lhmRemoveKey coreT.active_peers 4,
                    idle_peers := coreT.idle_peers ++ [4] },
       oneshotSend (noSinkClosed 7) 7
         (SinkPayload.callPayload { return_data := [1], changes := [] })) ∧
    (noSinkClosed 7 = false →
      (step checkReadOk checkCallOk noSinkClosed
        (Op.onCallResponse 1 4 { id := 0, value := [1], proof := [[2]] }) coreT).2 =
        [Effect.sinkSend 7 (SinkPayload.callPayload { return_data := [1], changes := [] })]) ∧
    (noSinkClosed 7 = true →
      (step checkReadOk checkCallOk noSinkClosed
        (Op.onCallResponse 1 4 { id := 0, value := [1], proof := [[2]] }) coreT).2 = []) :=
  C7_confirmed.1 checkReadOk checkCallOk noSinkClosed 1 4
    { id := 0, value := [1], proof := [[2]] } coreT reqT0 creqT 7
    { return_data := [1], changes := [] } rfl rfl rfl rfl rfl

/-! ### Claim C8 -/

/-- C8, confirmed: `on_connect` admits a peer exactly when its role flags
intersect {FULL, COLLATOR, VALIDATOR}; a non-serving (LIGHT-only) peer is
ignored with the state unchanged and no effect, and an admitted peer is
appended to the tail of the idle sequence.  (The admitted case is stated
with an empty pending queue so that the final dispatch is inert and the
appended peer is visible.) -/
theorem C8_confirmed :
    ∀ (checkRead : CheckRead) (checkCall : CheckCall) (closed : Nat → Bool) (now : Nat)
      (peer : PeerId) (role : Role) (s : OnDemandCore),
      (role.intersectsServing = false →
         step checkRead checkCall closed (Op.onConnect now peer role) s = (s, [])) ∧
      (role.intersectsServing = true → s.pending_requests = [] →
         step checkRead checkCall closed (Op.onConnect now peer role) s =
           ({ s with idle_peers := s.idle_peers ++ [peer] }, [])) ∧
      (roleLight.intersectsServing = false) ∧
      (role.intersectsServing = (role.full || role.collator || role.validator)) := by
  intro checkRead checkCall closed now peer role s
  refine ⟨?_, ?_, rfl, rfl⟩
  · intro h
    exact step_onConnect_neg checkRead checkCall closed now peer role s h
  · intro h hpend
    rw [step_onConnect_pos checkRead checkCall closed now peer role s h]
    rw [dispatch_of_pending_nil now (show (s.add_peer peer).pending_requests = [] from hpend)]
    rfl

/-- Witness for C8: a LIGHT-only peer is ignored on the concrete state
`coreW`. -/
theorem C8_confirmed_witness :
    step checkReadOk checkCallOk noSinkClosed (Op.onConnect 0 9 roleLight) coreW =
      (coreW, []) :=
  (C8_confirmed checkReadOk checkCallOk noSinkClosed 0 9 roleLight coreW).1 rfl

/-! ### Claim C9 -/

/-- C9, confirmed: a request requeued by a peer disconnect
(`remove_peer`) or a timeout eviction (`maintain_peers`) re-enters the
pending queue as the same Request value — id, payload and completion sink
untouched; re-stamping the timestamp at redispatch does not change the
outbound wire message, whose id field is the request's own id, so a
redispatch emits the same id as the earlier attempt, and the dispatch
loop sends exactly the re-stamped requests' messages. -/
theorem C9_confirmed :
    ∀ (s : OnDemandCore) (peer : PeerId) (req : Request) (now : Nat) (r : Request),
      (lhmGet? s.active_peers peer = some req →
         (s.remove_peer peer).pending_requests = req :: s.pending_requests) ∧
      ((s.maintain_peers now).1.pending_requests =
         ((s.active_peers.takeWhile (expiredB now)).map Prod.snd).reverse ++
           s.pending_requests) ∧
      (({ r with timestamp := now } : Request).message = r.message) ∧
      (r.message.msgId = r.id) ∧
      (∀ (pending : List Request) (idle : List PeerId) (active : List (PeerId × Request)),
         (dispatchLoop now pending idle active).2.2.2 =
           List.zipWith (fun q p =>
             Effect.sendMessage p ({ q with timestamp := now } : Request).message)
             pending idle) := by
  intro s peer req now r
  refine ⟨?_, ?_, ?_, ?_, dispatchLoop_effects now⟩
  · intro hget
    unfold OnDemandCore.remove_peer
    rw [hget]
  · unfold OnDemandCore.maintain_peers
    rw [maintainLoop_spec]
  · cases r with
    | mk i ts d => cases d <;> rfl
  · cases r with
    | mk i ts d => cases d <;> rfl

/-- Witness for C9: disconnecting peer 5 on `coreW` pushes the very
request 0 to the queue front. -/
theorem C9_confirmed_witness :
    (coreW.remove_peer 5).pending_requests = reqT0 :: coreW.pending_requests :=
  (C9_confirmed coreW 5 reqT0 0 reqT0).1 rfl

/-! ### Claim C10 -/

/-- C10, confirmed: `maintain_peers` pushes the evicted requests to the
pending queue's front one at a time in eviction order (map order = oldest
dispatch first), so the requeued segment ends up reversed: the pending
queue becomes the reverse of the evicted requests followed by the old
queue, and when anything was evicted the new front is the LAST evicted —
the most recently dispatched of the expired requests — which is therefore
redispatched first. -/
theorem C10_confirmed :
    ∀ (now : Nat) (s : OnDemandCore),
      (s.maintain_peers now).1.pending_requests =
        ((s.active_peers.takeWhile (expiredB now)).map Prod.snd).reverse ++
          s.pending_requests ∧
      (s.active_peers.takeWhile (expiredB now) ≠ [] →
        (s.maintain_peers now).1.pending_requests.head? =
          ((s.active_peers.takeWhile (expiredB now)).map Prod.snd).getLast?) := by
  intro now s
  have hmain : (s.maintain_peers now).1.pending_requests =
      ((s.active_peers.takeWhile (expiredB now)).map Prod.snd).reverse ++
        s.pending_requests := by
    unfold OnDemandCore.maintain_peers
    rw [maintainLoop_spec]
  refine ⟨hmain, ?_⟩
  intro hne
  have hne2 : (s.active_peers.takeWhile (expiredB now)).map Prod.snd ≠ [] := by
    simpa using hne
  obtain ⟨x, hx⟩ : ∃ x, ((s.active_peers.takeWhile (expiredB now)).map Prod.snd).getLast? =
      some x := by
    cases hl : ((s.active_peers.takeWhile (expiredB now)).map Prod.snd).getLast? with
    | none => exact absurd (List.getLast?_eq_none_iff.mp hl) hne2
    | some x => exact ⟨x, rfl⟩
  rw [hmain, List.head?_append, List.head?_reverse, hx, Option.or_some]

/-- Witness for C10: on `coreT` at the expiry instant the requeued front
is the last (and only) evicted request. -/
theorem C10_confirmed_witness :
    (coreT.maintain_peers REQUEST_TIMEOUT).1.pending_requests.head? =
      ((coreT.active_peers.takeWhile (expiredB REQUEST_TIMEOUT)).map Prod.snd).getLast? :=
  (C10_confirmed REQUEST_TIMEOUT coreT).2 (by decide)

end OnDemand
